import Mathlib

/-!
Shallow embedding of `endoscopy/boundary_detection/com_boundary_detectors.py`.

The module works on 2-D grayscale images.  We embed an image as a list of
rows of integer intensities (`Img`); rectangularity (all rows of a common
width) is carried as a hypothesis where a claim needs it, matching the
2-D arrays of numpy.  numpy float arithmetic on the profile values is embedded as
exact rational arithmetic, with `Option ℚ` for a single float value:
`some q` is the finite value `q` and `none` is the numpy NaN (which arises in
this code only as the mean over an empty axis, or `0.0/0.0`).
-/

namespace Endoscopy

/-- A 2-D grayscale image: a list of rows of integer intensity samples. -/
abbrev Img := List (List Int)

/-- Pixel accessor: `px img i j` is the intensity at row `i`, column `j`
(out-of-range defaults are never used under the in-range hypotheses of the
theorems below). -/
def px (img : Img) (i j : ℕ) : Int := (img.getD i []).getD j 0

/-- Line 16 / 42: `np.where(img < th, 0, 255).astype(np.uint8)`.
Each pixel strictly below `th` becomes `0`, every other pixel `255`. -/
def npWhereLt (img : Img) (th : Int) : Img :=
  img.map (fun row => row.map (fun x => if x < th then 0 else 255))

/-- numpy mean of a 1-D slice: NaN (`none`) on an empty slice, otherwise the
exact rational mean. -/
def npMean (l : List Int) : Option ℚ :=
  if l.length = 0 then none else some ((l.sum : ℚ) / (l.length : ℚ))

/-- The width (second shape component) of a 2-D array embedded as a list of
rows: the length of the first row (`0` when there are no rows, matching a
`(0, 0)` array). -/
def width (m : Img) : ℕ := (m.headD []).length

/-- The `j`-th column of a 2-D array (the default `0` is never hit on
rectangular input with `j < width`). -/
def column (m : Img) (j : ℕ) : List Int := m.map (fun row => row.getD j 0)

/-- Line 18 / 44: `col_mean = img.mean(axis=0)`, one mean per column. -/
def col_mean (m : Img) : List (Option ℚ) :=
  (List.range (width m)).map (fun j => npMean (column m j))

/-- Line 19 / 45: `row_mean = img.mean(axis=1)`, one mean per row. -/
def row_mean (m : Img) : List (Option ℚ) := m.map npMean

/-- The numpy `!= 0` test used by `np.nonzero`; NaN counts as nonzero. -/
def nzTest : Option ℚ → Bool
  | none => true
  | some q => q != 0

/-- Embeds `np.nonzero` on a 1-D profile: the (increasing) list of indices whose
entry is nonzero. -/
def nonzero (l : List (Option ℚ)) : List ℕ :=
  (List.range l.length).filter (fun i => nzTest (l.getD i none))

/-- Embeds `np.min` and `np.max` of a 1-D integer index array, together; `none` on
an empty array, where numpy raises `ValueError` (zero-size reduction). -/
def minMax? : List ℕ → Option (ℕ × ℕ)
  | [] => none
  | a :: as =>
    match minMax? as with
    | none => some (a, a)
    | some (lo, hi) => some (min a lo, max a hi)

/-- Errors a call can surface.  The source raises no exception of its own:
`valueError` models the generic numpy `ValueError` from a zero-size reduction
(`np.min`/`np.max` of an empty `np.nonzero` result).  `emptyRegionError` and
`invalidShapeError` are modelled from the error taxonomy of the spec (§7), which
names exception classes that appear nowhere in the source; they exist here
only so that claims about them can be stated. -/
inductive DetError
  | valueError
  | emptyRegionError
  | invalidShapeError
  deriving DecidableEq, Repr

instance {ε α : Type} [DecidableEq ε] [DecidableEq α] : DecidableEq (Except ε α) := fun a b =>
  match a, b with
  | .ok x, .ok y => decidable_of_iff (x = y) (by simp)
  | .error x, .error y => decidable_of_iff (x = y) (by simp)
  | .ok _, .error _ => isFalse (by simp)
  | .error _, .ok _ => isFalse (by simp)

/-- Lines 6–29: `boundaryRectangle(img, th)`.  Thresholds the image, takes
the two mean profiles, and reads the extreme nonzero indices; returns the
top-left corner and the inclusive shape `(bottom - top + 1, right - left + 1)`.
When the nonzero index set is empty, `np.min` raises (modelled as
`.error .valueError`). -/
def boundaryRectangle (img : Img) (th : Int) :
    Except DetError ((ℕ × ℕ) × (ℕ × ℕ)) :=
  let mask := npWhereLt img th
  let cm := col_mean mask
  let rm := row_mean mask
  match minMax? (nonzero rm), minMax? (nonzero cm) with
  | some (top, bottom), some (left, right) =>
    .ok ((top, left), (bottom - top + 1, right - left + 1))
  | _, _ => .error .valueError

/-- numpy `np.sum` over a 1-D float slice: `0` on an empty slice, NaN as soon
as one entry is NaN. -/
def nanSum (l : List (Option ℚ)) : Option ℚ :=
  l.foldr
    (fun a acc =>
      match a, acc with
      | some x, some y => some (x + y)
      | _, _ => none)
    (some 0)

/-- Embeds `np.multiply(np.arange(l.length), l)`: each profile entry weighted by its
index (NaN propagates). -/
def idxWeighted (l : List (Option ℚ)) : List (Option ℚ) :=
  (List.range l.length).map
    (fun i =>
      match l.getD i none with
      | some q => some ((i : ℚ) * q)
      | none => none)

/-- numpy float division as used on lines 47–48.  `0.0/0.0` is NaN; in this
code the numerator vanishes whenever the denominator does (the weights are
the profile entries themselves), so the `±inf` case of a nonzero numerator
over a zero denominator is unreachable and also mapped to `none`. -/
def nanDiv : Option ℚ → Option ℚ → Option ℚ
  | some a, some b => if b = 0 then none else some (a / b)
  | _, _ => none

/-- Lines 47–48: the intensity-weighted center of mass of a profile,
`np.sum(np.arange(n) * l) / l.sum()`. -/
def com (l : List (Option ℚ)) : Option ℚ := nanDiv (nanSum (idxWeighted l)) (nanSum l)

/-- Lines 32–55: `boundaryCircle(img, th)`.  Thresholds the image, computes
the two centers of mass, and the two "radii" — both of which the source
derives from `col_mean` (lines 50 and 51 are identical).  Returns
`((row_com, col_com), max col_radius row_radius)`; center components are
`Option ℚ` because the centroid arithmetic can produce NaN on degenerate
inputs.  When `np.nonzero(col_mean)` is empty, `np.max` raises (modelled as
`.error .valueError`); the centroid lines 47–48 never raise. -/
def boundaryCircle (img : Img) (th : Int) :
    Except DetError ((Option ℚ × Option ℚ) × ℚ) :=
  let mask := npWhereLt img th
  let cm := col_mean mask
  let rm := row_mean mask
  let row_com := com rm
  let col_com := com cm
  match minMax? (nonzero cm) with
  | some (lo, hi) =>
    let col_radius : ℚ := ((hi : ℚ) - (lo : ℚ)) / 2
    let row_radius : ℚ := ((hi : ℚ) - (lo : ℚ)) / 2
    .ok ((row_com, col_com), max col_radius row_radius)
  | none => .error .valueError

/-- The 10×10 test image of spec §8.6: zeros with a 4×4 block of 255 at
rows 3–6, columns 2–5. -/
def testImg : Img :=
  (List.range 10).map
    (fun i =>
      (List.range 10).map
        (fun j => if 3 ≤ i ∧ i ≤ 6 ∧ 2 ≤ j ∧ j ≤ 5 then (255 : Int) else 0))

/-! ### A heap model for the frame claim

The Python functions receive a reference to the array of the caller.  To state
that they never write through that reference, the detectors are re-embedded
in state-passing style over an explicit heap of allocated arrays: each numpy
operation of the source either reads an array or allocates a fresh one
(line 16 / 42, `np.where(...).astype(...)`, allocates the mask and rebinds
the local name `img`; nothing in the source assigns into an existing
array), so the heap only ever grows. -/

structure Heap where
  arrs : List Img

/-- Dereference an array reference. -/
def Heap.read (h : Heap) (r : ℕ) : Img := h.arrs.getD r []

/-- Allocate a fresh array, returning the extended heap and the new
reference. -/
def Heap.alloc (h : Heap) (a : Img) : Heap × ℕ :=
  (⟨h.arrs ++ [a]⟩, h.arrs.length)

/-- Line 16 / 42 as a heap operation: read the argument array, allocate the
freshly computed mask. -/
def npWhereLtH (h : Heap) (r : ℕ) (th : Int) : Heap × ℕ :=
  h.alloc (npWhereLt (h.read r) th)

/-- The function `boundaryRectangle` in state-passing style: the heap after the call is
returned alongside the result. -/
def boundaryRectangleH (h : Heap) (imgRef : ℕ) (th : Int) :
    Heap × Except DetError ((ℕ × ℕ) × (ℕ × ℕ)) :=
  let s := npWhereLtH h imgRef th
  let mask := s.1.read s.2
  let cm := col_mean mask
  let rm := row_mean mask
  (s.1,
    match minMax? (nonzero rm), minMax? (nonzero cm) with
    | some (top, bottom), some (left, right) =>
      .ok ((top, left), (bottom - top + 1, right - left + 1))
    | _, _ => .error .valueError)

/-- The function `boundaryCircle` in state-passing style. -/
def boundaryCircleH (h : Heap) (imgRef : ℕ) (th : Int) :
    Heap × Except DetError ((Option ℚ × Option ℚ) × ℚ) :=
  let s := npWhereLtH h imgRef th
  let mask := s.1.read s.2
  let cm := col_mean mask
  let rm := row_mean mask
  let row_com := com rm
  let col_com := com cm
  (s.1,
    match minMax? (nonzero cm) with
    | some (lo, hi) =>
      let col_radius : ℚ := ((hi : ℚ) - (lo : ℚ)) / 2
      let row_radius : ℚ := ((hi : ℚ) - (lo : ℚ)) / 2
      .ok ((row_com, col_com), max col_radius row_radius)
    | none => .error .valueError)

/-! ### Basic facts about the embedded numpy operations -/

theorem Heap.read_alloc_lt (h : Heap) (a : Img) (r : ℕ)
    (hr : r < h.arrs.length) : (h.alloc a).1.read r = h.read r := by
  simp only [Heap.alloc, Heap.read]
  have hr' : r < (h.arrs ++ [a]).length := by simp; omega
  rw [List.getD_eq_getElem _ _ hr', List.getD_eq_getElem _ _ hr,
    List.getElem_append_left hr]

theorem Heap.read_alloc_self (h : Heap) (a : Img) :
    (h.alloc a).1.read h.arrs.length = a := by
  simp only [Heap.alloc, Heap.read]
  have hr' : h.arrs.length < (h.arrs ++ [a]).length := by simp
  rw [List.getD_eq_getElem _ _ hr']
  exact List.getElem_concat_length h.arrs a h.arrs.length rfl hr'

theorem length_npWhereLt (img : Img) (th : Int) :
    (npWhereLt img th).length = img.length := by
  simp [npWhereLt]

theorem getD_npWhereLt (img : Img) (th : Int) (i : ℕ) (hi : i < img.length) :
    (npWhereLt img th).getD i [] =
      (img.getD i []).map (fun x => if x < th then 0 else 255) := by
  simp [npWhereLt, List.getD_eq_getElem?_getD, List.getElem?_map,
    List.getElem?_eq_getElem hi]

theorem px_npWhereLt (img : Img) (th : Int) (i j : ℕ) (hi : i < img.length)
    (hj : j < (img.getD i []).length) :
    px (npWhereLt img th) i j = if px img i j < th then 0 else 255 := by
  have h := getD_npWhereLt img th i hi
  have hj' : j < ((img.getD i []).map (fun x => if x < th then (0 : Int) else 255)).length := by
    rw [List.length_map]; exact hj
  simp only [px, h]
  rw [List.getD_eq_getElem _ _ hj', List.getElem_map]
  simp only [List.getD_eq_getElem _ _ hj]

theorem thSum_nonneg (th : Int) (l : List Int) :
    0 ≤ ((l.map (fun x => if x < th then (0 : Int) else 255)).sum) := by
  induction l with
  | nil => simp
  | cons a as ih =>
    simp only [List.map_cons, List.sum_cons]
    have : (0 : Int) ≤ if a < th then 0 else 255 := by positivity
    omega

theorem thSum_eq_zero_iff (th : Int) (l : List Int) :
    ((l.map (fun x => if x < th then (0 : Int) else 255)).sum = 0) ↔
      ∀ x ∈ l, x < th := by
  induction l with
  | nil => simp
  | cons a as ih =>
    simp only [List.map_cons, List.sum_cons, List.mem_cons]
    have hs := thSum_nonneg th as
    constructor
    · intro h
      by_cases ha : a < th
      · simp only [if_pos ha] at h
        intro x hx
        rcases hx with rfl | hx
        · exact ha
        · exact (ih.mp (by omega)) x hx
      · simp only [if_neg ha] at h
        omega
    · intro h
      rw [if_pos (h a (Or.inl rfl)), ih.mpr (fun x hx => h x (Or.inr hx))]
      norm_num

/-! ### Profile characterizations -/

theorem length_row_mean (m : Img) : (row_mean m).length = m.length := by
  simp [row_mean]

theorem getD_row_mean (m : Img) (i : ℕ) (hi : i < m.length) :
    (row_mean m).getD i none = npMean (m.getD i []) := by
  simp [row_mean, List.getD_eq_getElem?_getD, List.getElem?_map,
    List.getElem?_eq_getElem hi]

theorem length_col_mean (m : Img) : (col_mean m).length = width m := by
  simp [col_mean]

theorem getD_col_mean (m : Img) (j : ℕ) (hj : j < width m) :
    (col_mean m).getD j none = npMean (column m j) := by
  simp [col_mean, List.getD_eq_getElem?_getD, List.getElem?_map,
    List.getElem?_eq_getElem, hj]

theorem length_column (m : Img) (j : ℕ) : (column m j).length = m.length := by
  simp [column]

theorem nzTest_npMean (l : List Int) (h : l.length ≠ 0) :
    (nzTest (npMean l) = true ↔ l.sum ≠ 0) := by
  rw [npMean, if_neg h]
  have hl : ((l.length : ℚ)) ≠ 0 := Nat.cast_ne_zero.mpr h
  simp only [nzTest, bne_iff_ne, ne_eq, div_eq_zero_iff, hl, or_false,
    Int.cast_eq_zero]

/-- A touched row: under rectangularity and positive width, the `i`-th entry
of `row_mean` of the mask is nonzero exactly when row `i` holds a pixel at or
above the threshold. -/
theorem nz_row_iff (img : Img) (th : Int) (W i : ℕ)
    (hrect : ∀ row ∈ img, row.length = W) (hW : 0 < W) (hi : i < img.length) :
    (nzTest ((row_mean (npWhereLt img th)).getD i none) = true ↔
      ∃ j, j < W ∧ th ≤ px img i j) := by
  have hmem : img.getD i [] ∈ img := by
    rw [List.getD_eq_getElem?_getD, List.getElem?_eq_getElem hi]
    exact List.getElem_mem hi
  have hlen : (img.getD i []).length = W := hrect _ hmem
  have hi' : i < (npWhereLt img th).length := by rw [length_npWhereLt]; exact hi
  have hml : ((img.getD i []).map (fun x => if x < th then (0 : Int) else 255)).length ≠ 0 := by
    rw [List.length_map, hlen]; omega
  rw [getD_row_mean _ _ hi', getD_npWhereLt img th i hi, nzTest_npMean _ hml,
    ne_eq, thSum_eq_zero_iff]
  push_neg
  constructor
  · rintro ⟨x, hx, hth⟩
    obtain ⟨j, hj, rfl⟩ := List.mem_iff_getElem.mp hx
    refine ⟨j, by omega, ?_⟩
    rwa [px, List.getD_eq_getElem _ _ hj]
  · rintro ⟨j, hj, hth⟩
    have hj' : j < (img.getD i []).length := by omega
    refine ⟨(img.getD i []).getD j 0, ?_, ?_⟩
    · rw [List.getD_eq_getElem _ _ hj']
      exact List.getElem_mem hj'
    · rwa [px] at hth

theorem width_npWhereLt (img : Img) (th : Int) :
    width (npWhereLt img th) = width img := by
  cases img with
  | nil => rfl
  | cons r rs => simp [width, npWhereLt]

theorem width_eq_of_rect (img : Img) (W : ℕ)
    (hrect : ∀ row ∈ img, row.length = W) (hne : img ≠ []) : width img = W := by
  cases img with
  | nil => exact absurd rfl hne
  | cons r rs => exact hrect r (List.mem_cons_self r rs)

theorem column_npWhereLt (img : Img) (th : Int) (W j : ℕ)
    (hrect : ∀ row ∈ img, row.length = W) (hj : j < W) :
    column (npWhereLt img th) j =
      (column img j).map (fun x => if x < th then 0 else 255) := by
  simp only [column, npWhereLt, List.map_map]
  apply List.map_congr_left
  intro row hrow
  have hjr : j < row.length := by rw [hrect row hrow]; exact hj
  have hjr' : j < (row.map (fun x => if x < th then (0 : Int) else 255)).length := by
    rw [List.length_map]; exact hjr
  simp only [Function.comp_apply, List.getD_eq_getElem _ _ hjr,
    List.getD_eq_getElem _ _ hjr', List.getElem_map]

/-- A touched column: under rectangularity and at least one row, the `j`-th
entry of `col_mean` of the mask is nonzero exactly when column `j` holds a
pixel at or above the threshold. -/
theorem nz_col_iff (img : Img) (th : Int) (W j : ℕ)
    (hrect : ∀ row ∈ img, row.length = W) (hne : img ≠ []) (hj : j < W) :
    (nzTest ((col_mean (npWhereLt img th)).getD j none) = true ↔
      ∃ i, i < img.length ∧ th ≤ px img i j) := by
  have hw : width (npWhereLt img th) = W := by
    rw [width_npWhereLt]; exact width_eq_of_rect img W hrect hne
  have hcl : ((column img j).map (fun x => if x < th then (0 : Int) else 255)).length ≠ 0 := by
    rw [List.length_map, length_column]
    intro h0
    exact hne (List.length_eq_zero.mp h0)
  rw [getD_col_mean _ _ (by rw [hw]; exact hj),
    column_npWhereLt img th W j hrect hj, nzTest_npMean _ hcl, ne_eq,
    thSum_eq_zero_iff]
  push_neg
  constructor
  · rintro ⟨x, hx, hth⟩
    obtain ⟨i, hi, rfl⟩ := List.mem_iff_getElem.mp hx
    rw [length_column] at hi
    refine ⟨i, hi, ?_⟩
    have : i < (column img j).length := by rw [length_column]; exact hi
    rw [px]
    have hcol : (column img j)[i] = (img.getD i []).getD j 0 := by
      simp only [column, List.getElem_map, List.getD_eq_getElem _ _ hi]
    rwa [← hcol]
  · rintro ⟨i, hi, hth⟩
    have hi' : i < (column img j).length := by rw [length_column]; exact hi
    refine ⟨(column img j)[i], List.getElem_mem hi', ?_⟩
    have hcol : (column img j)[i] = (img.getD i []).getD j 0 := by
      simp only [column, List.getElem_map, List.getD_eq_getElem _ _ hi]
    rw [hcol]
    rwa [px] at hth

/-! ### `np.nonzero` and `np.min`/`np.max` -/

theorem mem_nonzero (l : List (Option ℚ)) (i : ℕ) :
    i ∈ nonzero l ↔ i < l.length ∧ nzTest (l.getD i none) = true := by
  simp [nonzero, List.mem_filter, List.mem_range]

theorem minMax?_eq_none_iff (l : List ℕ) : minMax? l = none ↔ l = [] := by
  cases l with
  | nil => simp [minMax?]
  | cons a as =>
    simp only [minMax?]
    cases h : minMax? as with
    | none => simp
    | some p => cases p; simp

theorem minMax?_spec (l : List ℕ) (lo hi : ℕ) (h : minMax? l = some (lo, hi)) :
    lo ∈ l ∧ hi ∈ l ∧ ∀ x ∈ l, lo ≤ x ∧ x ≤ hi := by
  induction l generalizing lo hi with
  | nil => simp [minMax?] at h
  | cons a as ih =>
    rw [minMax?] at h
    cases has : minMax? as with
    | none =>
      rw [has] at h
      simp only [Option.some_inj, Prod.mk.injEq] at h
      obtain ⟨rfl, rfl⟩ := h
      have : as = [] := (minMax?_eq_none_iff as).mp has
      subst this
      simp
    | some p =>
      obtain ⟨lo', hi'⟩ := p
      rw [has] at h
      simp only [Option.some_inj, Prod.mk.injEq] at h
      obtain ⟨rfl, rfl⟩ := h
      obtain ⟨hmlo, hmhi, hb⟩ := ih lo' hi' has
      refine ⟨?_, ?_, ?_⟩
      · rcases le_total a lo' with hc | hc
        · rw [min_eq_left hc]; exact List.mem_cons_self a as
        · rw [min_eq_right hc]; exact List.mem_cons_of_mem a hmlo
      · rcases le_total a hi' with hc | hc
        · rw [max_eq_right hc]; exact List.mem_cons_of_mem a hmhi
        · rw [max_eq_left hc]; exact List.mem_cons_self a as
      · intro x hx
        rcases List.mem_cons.mp hx with rfl | hx
        · exact ⟨min_le_left _ _, le_max_left _ _⟩
        · obtain ⟨h1, h2⟩ := hb x hx
          exact ⟨le_trans (min_le_right _ _) h1, le_trans h2 (le_max_right _ _)⟩

theorem minMax?_isSome_of_mem (l : List ℕ) (x : ℕ) (hx : x ∈ l) :
    ∃ lo hi, minMax? l = some (lo, hi) := by
  cases h : minMax? l with
  | none =>
    rw [minMax?_eq_none_iff] at h
    subst h
    simp at hx
  | some p =>
    obtain ⟨lo, hi⟩ := p
    exact ⟨lo, hi, rfl⟩

theorem nonzero_subset_of_imp (l₁ l₂ : List (Option ℚ)) (hlen : l₁.length = l₂.length)
    (h : ∀ i, i < l₂.length → nzTest (l₂.getD i none) = true →
      nzTest (l₁.getD i none) = true) :
    ∀ i ∈ nonzero l₂, i ∈ nonzero l₁ := by
  intro i hi
  rw [mem_nonzero] at hi ⊢
  exact ⟨by omega, h i hi.1 hi.2⟩

theorem length_row_mean_mask (img : Img) (th : Int) :
    (row_mean (npWhereLt img th)).length = img.length := by
  rw [length_row_mean, length_npWhereLt]

theorem length_col_mean_mask (img : Img) (th : Int) (W : ℕ)
    (hrect : ∀ row ∈ img, row.length = W) (hne : img ≠ []) :
    (col_mean (npWhereLt img th)).length = W := by
  rw [length_col_mean, width_npWhereLt]
  exact width_eq_of_rect img W hrect hne

/-- Membership of a row index in the touched-row index list, in terms of
pixels of the original image. -/
theorem mem_nonzero_row_iff (img : Img) (th : Int) (W i : ℕ)
    (hrect : ∀ row ∈ img, row.length = W) (hW : 0 < W) :
    (i ∈ nonzero (row_mean (npWhereLt img th)) ↔
      i < img.length ∧ ∃ j, j < W ∧ th ≤ px img i j) := by
  rw [mem_nonzero, length_row_mean_mask]
  constructor
  · rintro ⟨hi, hnz⟩
    exact ⟨hi, (nz_row_iff img th W i hrect hW hi).mp hnz⟩
  · rintro ⟨hi, hex⟩
    exact ⟨hi, (nz_row_iff img th W i hrect hW hi).mpr hex⟩

/-- Membership of a column index in the touched-column index list, in terms
of pixels of the original image. -/
theorem mem_nonzero_col_iff (img : Img) (th : Int) (W j : ℕ)
    (hrect : ∀ row ∈ img, row.length = W) (hne : img ≠ []) :
    (j ∈ nonzero (col_mean (npWhereLt img th)) ↔
      j < W ∧ ∃ i, i < img.length ∧ th ≤ px img i j) := by
  rw [mem_nonzero, length_col_mean_mask img th W hrect hne]
  constructor
  · rintro ⟨hj, hnz⟩
    exact ⟨hj, (nz_col_iff img th W j hrect hne hj).mp hnz⟩
  · rintro ⟨hj, hex⟩
    exact ⟨hj, (nz_col_iff img th W j hrect hne hj).mpr hex⟩

/-- Concrete evaluation of `boundaryRectangle` on the 10×10 test image. -/
theorem eval_boundaryRectangle_testImg :
    boundaryRectangle testImg 10 = .ok ((3, 2), (4, 4)) := by
  norm_num [testImg, boundaryRectangle, npWhereLt, col_mean, row_mean, npMean,
    width, column, nonzero, nzTest, minMax?, List.filter, List.range_succ]

/-- Concrete evaluation of `boundaryCircle` on the 10×10 test image. -/
theorem eval_boundaryCircle_testImg :
    boundaryCircle testImg 10 =
      .ok ((some ((9 : ℚ) / 2), some ((7 : ℚ) / 2)), (3 : ℚ) / 2) := by
  norm_num [testImg, boundaryCircle, npWhereLt, col_mean, row_mean, npMean,
    width, column, nonzero, nzTest, minMax?, com, nanSum, nanDiv, idxWeighted,
    List.filter, List.range_succ]

/-! ### Claim theorems -/

/-- C1: for every 2-D image holding at least one pixel at or above `th`,
`boundaryRectangle` succeeds and returns the smallest axis-aligned inclusive
box containing every such pixel: every pixel with intensity `≥ th` has its
row in `[top, top + height - 1]` and its column in `[left, left + width - 1]`,
and each of the four sides is attained by some such pixel, so shrinking any
side by one loses a pixel. -/
theorem boundaryRectangle_smallest_box (img : Img) (th : Int) (W : ℕ)
    (hrect : ∀ row ∈ img, row.length = W)
    (hx : ∃ i j, i < img.length ∧ j < W ∧ th ≤ px img i j) :
    ∃ top left h w,
      boundaryRectangle img th = .ok ((top, left), (h, w)) ∧
      (∀ i j, i < img.length → j < W → th ≤ px img i j →
        top ≤ i ∧ i ≤ top + h - 1 ∧ left ≤ j ∧ j ≤ left + w - 1) ∧
      (∃ j, j < W ∧ th ≤ px img top j) ∧
      (∃ j, j < W ∧ th ≤ px img (top + h - 1) j) ∧
      (∃ i, i < img.length ∧ th ≤ px img i left) ∧
      (∃ i, i < img.length ∧ th ≤ px img i (left + w - 1)) := by
  obtain ⟨i0, j0, hi0, hj0, hth0⟩ := hx
  have hW : 0 < W := by omega
  have hne : img ≠ [] := by
    intro h0
    rw [h0] at hi0
    simp at hi0
  have hi0r : i0 ∈ nonzero (row_mean (npWhereLt img th)) :=
    (mem_nonzero_row_iff img th W i0 hrect hW).mpr ⟨hi0, j0, hj0, hth0⟩
  have hj0c : j0 ∈ nonzero (col_mean (npWhereLt img th)) :=
    (mem_nonzero_col_iff img th W j0 hrect hne).mpr ⟨hj0, i0, hi0, hth0⟩
  obtain ⟨top, bottom, hr⟩ := minMax?_isSome_of_mem _ _ hi0r
  obtain ⟨left, right, hc⟩ := minMax?_isSome_of_mem _ _ hj0c
  obtain ⟨htopm, hbotm, hrow⟩ := minMax?_spec _ _ _ hr
  obtain ⟨hleftm, hrightm, hcol⟩ := minMax?_spec _ _ _ hc
  have htb : top ≤ bottom := (hrow bottom hbotm).1
  have hlr : left ≤ right := (hcol right hrightm).1
  refine ⟨top, left, bottom - top + 1, right - left + 1, ?_, ?_, ?_, ?_, ?_, ?_⟩
  · simp only [boundaryRectangle]
    rw [hr, hc]
  · intro i j hi hj hth
    have hir : i ∈ nonzero (row_mean (npWhereLt img th)) :=
      (mem_nonzero_row_iff img th W i hrect hW).mpr ⟨hi, j, hj, hth⟩
    have hjc : j ∈ nonzero (col_mean (npWhereLt img th)) :=
      (mem_nonzero_col_iff img th W j hrect hne).mpr ⟨hj, i, hi, hth⟩
    obtain ⟨h1, h2⟩ := hrow i hir
    obtain ⟨h3, h4⟩ := hcol j hjc
    omega
  · exact ((mem_nonzero_row_iff img th W top hrect hW).mp htopm).2
  · have : top + (bottom - top + 1) - 1 = bottom := by omega
    rw [this]
    exact ((mem_nonzero_row_iff img th W bottom hrect hW).mp hbotm).2
  · obtain ⟨hl, i, hi, hth⟩ := (mem_nonzero_col_iff img th W left hrect hne).mp hleftm
    exact ⟨i, hi, hth⟩
  · have : left + (right - left + 1) - 1 = right := by omega
    rw [this]
    obtain ⟨hl, i, hi, hth⟩ := (mem_nonzero_col_iff img th W right hrect hne).mp hrightm
    exact ⟨i, hi, hth⟩

/-- Witness for C1: the theorem applied to the 2×2 image `[[0, 255], [0, 0]]`
with threshold 10. -/
theorem boundaryRectangle_smallest_box_witness :
    ∃ top left h w,
      boundaryRectangle [[0, 255], [0, 0]] 10 = .ok ((top, left), (h, w)) ∧
      (∀ i j, i < ([[0, 255], [0, 0]] : Img).length → j < 2 →
        10 ≤ px [[0, 255], [0, 0]] i j →
        top ≤ i ∧ i ≤ top + h - 1 ∧ left ≤ j ∧ j ≤ left + w - 1) ∧
      (∃ j, j < 2 ∧ 10 ≤ px [[0, 255], [0, 0]] top j) ∧
      (∃ j, j < 2 ∧ 10 ≤ px [[0, 255], [0, 0]] (top + h - 1) j) ∧
      (∃ i, i < ([[0, 255], [0, 0]] : Img).length ∧ 10 ≤ px [[0, 255], [0, 0]] i left) ∧
      (∃ i, i < ([[0, 255], [0, 0]] : Img).length ∧
        10 ≤ px [[0, 255], [0, 0]] i (left + w - 1)) :=
  boundaryRectangle_smallest_box [[0, 255], [0, 0]] 10 2 (by decide)
    ⟨0, 1, by decide, by decide, by decide⟩

/-- C2: whenever `boundaryCircle` succeeds, its radius is half the span of
the touched columns of the thresholded mask — the two radius lines of the
source both read `col_mean`, so the returned radius is a function of the
column profile alone: it is unchanged between any two calls whose masks have
the same column profile, whatever their row profiles. -/
theorem boundaryCircle_radius_from_col_profile (img : Img) (th : Int)
    (c : Option ℚ × Option ℚ) (r : ℚ)
    (h : boundaryCircle img th = .ok (c, r)) :
    ∃ lo hi,
      minMax? (nonzero (col_mean (npWhereLt img th))) = some (lo, hi) ∧
      r = ((hi : ℚ) - (lo : ℚ)) / 2 ∧
      (∀ img₂ th₂ c₂ r₂,
        boundaryCircle img₂ th₂ = .ok (c₂, r₂) →
        col_mean (npWhereLt img₂ th₂) = col_mean (npWhereLt img th) →
        r₂ = r) := by
  simp only [boundaryCircle] at h
  rcases hm : minMax? (nonzero (col_mean (npWhereLt img th))) with _ | p
  · rw [hm] at h
    exact absurd h (by simp)
  · obtain ⟨lo, hi⟩ := p
    rw [hm] at h
    simp only [Except.ok.injEq, Prod.mk.injEq, max_self] at h
    refine ⟨lo, hi, rfl, h.2.symm, ?_⟩
    intro img₂ th₂ c₂ r₂ h₂ hcm
    simp only [boundaryCircle, hcm, hm] at h₂
    simp only [Except.ok.injEq, Prod.mk.injEq, max_self] at h₂
    rw [← h₂.2, ← h.2]

/-- Witness for C2: the theorem applied to the concrete 10×10 scenario. -/
theorem boundaryCircle_radius_from_col_profile_witness :
    ∃ lo hi,
      minMax? (nonzero (col_mean (npWhereLt testImg 10))) = some (lo, hi) ∧
      (3 : ℚ) / 2 = ((hi : ℚ) - (lo : ℚ)) / 2 ∧
      (∀ img₂ th₂ c₂ r₂,
        boundaryCircle img₂ th₂ = .ok (c₂, r₂) →
        col_mean (npWhereLt img₂ th₂) = col_mean (npWhereLt testImg 10) →
        r₂ = (3 : ℚ) / 2) :=
  boundaryCircle_radius_from_col_profile testImg 10
    (some ((9 : ℚ) / 2), some ((7 : ℚ) / 2)) ((3 : ℚ) / 2)
    eval_boundaryCircle_testImg

/-- C3: the thresholding step maps every in-range pixel to 255 when its
intensity is at or above `th` (so pixels exactly equal to `th` become 255)
and to 0 when strictly below, and every mask value lies in the 8-bit
unsigned range. -/
theorem npWhereLt_threshold_contract (img : Img) (th : Int) (i j : ℕ)
    (hi : i < img.length) (hj : j < (img.getD i []).length) :
    (th ≤ px img i j → px (npWhereLt img th) i j = 255) ∧
    (px img i j < th → px (npWhereLt img th) i j = 0) ∧
    0 ≤ px (npWhereLt img th) i j ∧ px (npWhereLt img th) i j ≤ 255 := by
  have h := px_npWhereLt img th i j hi hj
  by_cases hc : px img i j < th
  · rw [h, if_pos hc]
    refine ⟨fun hth => absurd hth (by omega), fun _ => rfl, by omega, by omega⟩
  · rw [h, if_neg hc]
    refine ⟨fun _ => rfl, fun hth => absurd hth hc, by omega, by omega⟩

/-- Witness for C3: the theorem applied to pixel (3, 2) of the 10×10 test
image (value 255 ≥ 10) — together with an application at a below-threshold
pixel folded into the same closed statement via pixel (0, 0). -/
theorem npWhereLt_threshold_contract_witness :
    (10 ≤ px testImg 3 2 → px (npWhereLt testImg 10) 3 2 = 255) ∧
    (px testImg 3 2 < 10 → px (npWhereLt testImg 10) 3 2 = 0) ∧
    0 ≤ px (npWhereLt testImg 10) 3 2 ∧ px (npWhereLt testImg 10) 3 2 ≤ 255 :=
  npWhereLt_threshold_contract testImg 10 3 2 (by decide) (by decide)

/-- C5: the concrete 10×10 scenario of spec §8.6: the rectangle is
`top_left = (3, 2)`, `shape = (4, 4)`; the circle is `center = (4.5, 3.5)`
(row, column), `radius = 1.5`. -/
theorem concrete_scenario_10x10 :
    boundaryRectangle testImg 10 = .ok ((3, 2), (4, 4)) ∧
    boundaryCircle testImg 10 =
      .ok ((some ((9 : ℚ) / 2), some ((7 : ℚ) / 2)), (3 : ℚ) / 2) :=
  ⟨eval_boundaryRectangle_testImg, eval_boundaryCircle_testImg⟩

/-- Concrete evaluation of both detectors on a 1×1 all-zero image: both
surface the generic numpy zero-size-reduction error. -/
theorem eval_allZero_1x1 :
    boundaryRectangle [[0]] 10 = .error .valueError ∧
    boundaryCircle [[0]] 10 = .error .valueError := by
  constructor <;>
  norm_num [boundaryRectangle, boundaryCircle, npWhereLt, col_mean, row_mean,
    npMean, width, column, nonzero, nzTest, minMax?, com, nanSum, nanDiv,
    idxWeighted, List.filter, List.range_succ]

/-- Counterexample for C4: on the all-zero 1×1 image with `th = 10`, both
detectors surface the generic propagated error, which is not
`EmptyRegionError` — no code in the repository constructs such an error. -/
theorem emptyRegion_error_is_generic :
    boundaryRectangle [[0]] 10 = .error .valueError ∧
    boundaryCircle [[0]] 10 = .error .valueError ∧
    DetError.valueError ≠ DetError.emptyRegionError :=
  ⟨eval_allZero_1x1.1, eval_allZero_1x1.2, by decide⟩

/-- Shared helper: on every rectangular image in which no in-range pixel
meets the threshold, both detectors surface the generic zero-size-reduction
error. -/
theorem aux_allBelow_valueError (img : Img) (th : Int) (W : ℕ)
    (hrect : ∀ row ∈ img, row.length = W)
    (hall : ∀ i, i < img.length → ∀ j, j < W → px img i j < th) :
    boundaryRectangle img th = .error .valueError ∧
    boundaryCircle img th = .error .valueError := by
  have hnz : nonzero (col_mean (npWhereLt img th)) = [] := by
    by_cases hne : img = []
    · subst hne
      rfl
    · rw [List.eq_nil_iff_forall_not_mem]
      intro j hj
      obtain ⟨hjW, i, hi, hth⟩ := (mem_nonzero_col_iff img th W j hrect hne).mp hj
      exact absurd hth (by have := hall i hi j hjW; omega)
  have hcm : minMax? (nonzero (col_mean (npWhereLt img th))) = none := by
    rw [hnz]
    rfl
  constructor
  · simp only [boundaryRectangle]
    rcases hrm : minMax? (nonzero (row_mean (npWhereLt img th))) with _ | p
    · rw [hcm]
    · obtain ⟨t, b⟩ := p
      rw [hcm]
  · simp only [boundaryCircle]
    rw [hcm]

/-- C4 (amended): on every rectangular image in which no pixel meets the
threshold, both detectors do fail rather than return a degenerate result —
but with the opaque propagated zero-size-reduction error (`valueError`),
not with an explicitly raised `EmptyRegionError`. -/
theorem allBelow_raises_generic_valueError (img : Img) (th : Int) (W : ℕ)
    (hrect : ∀ row ∈ img, row.length = W)
    (hall : ∀ i, i < img.length → ∀ j, j < W → px img i j < th) :
    boundaryRectangle img th = .error .valueError ∧
    boundaryCircle img th = .error .valueError :=
  aux_allBelow_valueError img th W hrect hall

/-- Witness for C4 (amended): the theorem applied to the 1×2 all-zero image
with threshold 10. -/
theorem allBelow_raises_generic_valueError_witness :
    boundaryRectangle [[0, 0]] 10 = .error .valueError ∧
    boundaryCircle [[0, 0]] 10 = .error .valueError :=
  allBelow_raises_generic_valueError [[0, 0]] 10 2 (by decide) (by decide)

/-- Counterexample for C8: on a 0×0 input (a zero-length dimension, written as
the empty list of rows) with `th = 10`, both detectors surface the generic
propagated error, not `InvalidShapeError` — the source performs no shape
validation at all. -/
theorem zeroSize_error_is_generic :
    boundaryRectangle [] 10 = .error .valueError ∧
    boundaryCircle [] 10 = .error .valueError ∧
    DetError.valueError ≠ DetError.invalidShapeError := by
  refine ⟨rfl, rfl, by decide⟩

/-- C8 (amended): the source contains no shape validation: an image with a
zero-length dimension (no rows at all, or every row empty) surfaces the
generic zero-size-reduction error, and no input and no threshold ever
produces `InvalidShapeError` from either detector. -/
theorem no_shape_validation (img : Img) (th : Int)
    (hzero : img = [] ∨ ∀ row ∈ img, row.length = 0) :
    boundaryRectangle img th = .error .valueError ∧
    boundaryCircle img th = .error .valueError ∧
    (∀ img₂ th₂,
      boundaryRectangle img₂ th₂ ≠ .error .invalidShapeError ∧
      boundaryCircle img₂ th₂ ≠ .error .invalidShapeError) := by
  have hdeg : boundaryRectangle img th = .error .valueError ∧
      boundaryCircle img th = .error .valueError := by
    rcases hzero with rfl | hz
    · exact ⟨rfl, rfl⟩
    · exact aux_allBelow_valueError img th 0 hz
        (fun i _ j hj => absurd hj (Nat.not_lt_zero j))
  refine ⟨hdeg.1, hdeg.2, ?_⟩
  intro img₂ th₂
  constructor
  · simp only [boundaryRectangle]
    rcases hrm : minMax? (nonzero (row_mean (npWhereLt img₂ th₂))) with _ | p
    · simp
    · obtain ⟨t, b⟩ := p
      rcases hcm : minMax? (nonzero (col_mean (npWhereLt img₂ th₂))) with _ | q
      · simp
      · obtain ⟨l, r⟩ := q
        simp
  · simp only [boundaryCircle]
    rcases hcm : minMax? (nonzero (col_mean (npWhereLt img₂ th₂))) with _ | q
    · simp
    · obtain ⟨l, r⟩ := q
      simp

/-- Shared helper: on a rectangular image with at least one pixel at or
above the threshold, `boundaryRectangle` succeeds, and its components are
the extreme touched indices. -/
theorem aux_rect_eval (img : Img) (th : Int) (W : ℕ)
    (hrect : ∀ row ∈ img, row.length = W)
    (hx : ∃ i j, i < img.length ∧ j < W ∧ th ≤ px img i j) :
    ∃ top bottom left right,
      minMax? (nonzero (row_mean (npWhereLt img th))) = some (top, bottom) ∧
      minMax? (nonzero (col_mean (npWhereLt img th))) = some (left, right) ∧
      boundaryRectangle img th =
        .ok ((top, left), (bottom - top + 1, right - left + 1)) := by
  obtain ⟨i0, j0, hi0, hj0, hth0⟩ := hx
  have hW : 0 < W := by omega
  have hne : img ≠ [] := by
    intro h0
    rw [h0] at hi0
    simp at hi0
  have hi0r : i0 ∈ nonzero (row_mean (npWhereLt img th)) :=
    (mem_nonzero_row_iff img th W i0 hrect hW).mpr ⟨hi0, j0, hj0, hth0⟩
  have hj0c : j0 ∈ nonzero (col_mean (npWhereLt img th)) :=
    (mem_nonzero_col_iff img th W j0 hrect hne).mpr ⟨hj0, i0, hi0, hth0⟩
  obtain ⟨top, bottom, hr⟩ := minMax?_isSome_of_mem _ _ hi0r
  obtain ⟨left, right, hc⟩ := minMax?_isSome_of_mem _ _ hj0c
  refine ⟨top, bottom, left, right, hr, hc, ?_⟩
  simp only [boundaryRectangle]
  rw [hr, hc]

/-- C6: raising the threshold never grows the area of the returned
rectangle: for `th₁ ≤ th₂` (both leaving at least one pixel at or above
threshold), the rectangle at `th₂` has area at most that at `th₁`. -/
theorem boundaryRectangle_area_antitone (img : Img) (th₁ th₂ : Int) (W : ℕ)
    (hrect : ∀ row ∈ img, row.length = W) (hth : th₁ ≤ th₂)
    (hx₂ : ∃ i j, i < img.length ∧ j < W ∧ th₂ ≤ px img i j) :
    ∃ t₁ l₁ h₁ w₁ t₂ l₂ h₂ w₂,
      boundaryRectangle img th₁ = .ok ((t₁, l₁), (h₁, w₁)) ∧
      boundaryRectangle img th₂ = .ok ((t₂, l₂), (h₂, w₂)) ∧
      h₂ * w₂ ≤ h₁ * w₁ := by
  have hx₁ : ∃ i j, i < img.length ∧ j < W ∧ th₁ ≤ px img i j := by
    obtain ⟨i, j, hi, hj, hthx⟩ := hx₂
    exact ⟨i, j, hi, hj, le_trans hth hthx⟩
  obtain ⟨i0, j0, hi0, hj0, hth0⟩ := hx₂
  have hW : 0 < W := by omega
  have hne : img ≠ [] := by
    intro h0
    rw [h0] at hi0
    simp at hi0
  obtain ⟨t₁, b₁, l₁, r₁, hr₁, hc₁, hok₁⟩ := aux_rect_eval img th₁ W hrect hx₁
  obtain ⟨t₂, b₂, l₂, r₂, hr₂, hc₂, hok₂⟩ :=
    aux_rect_eval img th₂ W hrect ⟨i0, j0, hi0, hj0, hth0⟩
  obtain ⟨ht₁m, hb₁m, hrow₁⟩ := minMax?_spec _ _ _ hr₁
  obtain ⟨ht₂m, hb₂m, hrow₂⟩ := minMax?_spec _ _ _ hr₂
  obtain ⟨hl₁m, hr₁m, hcol₁⟩ := minMax?_spec _ _ _ hc₁
  obtain ⟨hl₂m, hr₂m, hcol₂⟩ := minMax?_spec _ _ _ hc₂
  have hsubr : ∀ x, x ∈ nonzero (row_mean (npWhereLt img th₂)) →
      x ∈ nonzero (row_mean (npWhereLt img th₁)) := by
    intro x hx
    obtain ⟨hxl, j, hj, hthx⟩ := (mem_nonzero_row_iff img th₂ W x hrect hW).mp hx
    exact (mem_nonzero_row_iff img th₁ W x hrect hW).mpr
      ⟨hxl, j, hj, le_trans hth hthx⟩
  have hsubc : ∀ x, x ∈ nonzero (col_mean (npWhereLt img th₂)) →
      x ∈ nonzero (col_mean (npWhereLt img th₁)) := by
    intro x hx
    obtain ⟨hxl, i, hi, hthx⟩ := (mem_nonzero_col_iff img th₂ W x hrect hne).mp hx
    exact (mem_nonzero_col_iff img th₁ W x hrect hne).mpr
      ⟨hxl, i, hi, le_trans hth hthx⟩
  have h1 : t₁ ≤ t₂ ∧ t₂ ≤ b₁ := hrow₁ t₂ (hsubr t₂ ht₂m)
  have h2 : t₁ ≤ b₂ ∧ b₂ ≤ b₁ := hrow₁ b₂ (hsubr b₂ hb₂m)
  have h3 : l₁ ≤ l₂ ∧ l₂ ≤ r₁ := hcol₁ l₂ (hsubc l₂ hl₂m)
  have h4 : l₁ ≤ r₂ ∧ r₂ ≤ r₁ := hcol₁ r₂ (hsubc r₂ hr₂m)
  have ht2b2 : t₂ ≤ b₂ := (hrow₂ b₂ hb₂m).1
  have hl2r2 : l₂ ≤ r₂ := (hcol₂ r₂ hr₂m).1
  refine ⟨t₁, l₁, b₁ - t₁ + 1, r₁ - l₁ + 1, t₂, l₂, b₂ - t₂ + 1, r₂ - l₂ + 1,
    hok₁, hok₂, ?_⟩
  exact Nat.mul_le_mul (by omega) (by omega)

/-- Witness for C6: the theorem applied to `[[255, 20], [0, 0]]` with
thresholds 10 ≤ 100: the 100-rectangle is the single pixel (0, 0) while the
10-rectangle spans both columns of row 0. -/
theorem boundaryRectangle_area_antitone_witness :
    ∃ t₁ l₁ h₁ w₁ t₂ l₂ h₂ w₂,
      boundaryRectangle [[255, 20], [0, 0]] 10 = .ok ((t₁, l₁), (h₁, w₁)) ∧
      boundaryRectangle [[255, 20], [0, 0]] 100 = .ok ((t₂, l₂), (h₂, w₂)) ∧
      h₂ * w₂ ≤ h₁ * w₁ :=
  boundaryRectangle_area_antitone [[255, 20], [0, 0]] 10 100 2 (by decide)
    (by decide) ⟨0, 0, by decide, by decide, by decide⟩

/-- C7: thresholding is idempotent on already-binary masks: on an image all
of whose values are 0 or 255, any threshold in `(0, 255]` reproduces the
image unchanged. -/
theorem npWhereLt_idempotent (mask : Img) (th : Int)
    (hbin : ∀ row ∈ mask, ∀ x ∈ row, x = 0 ∨ x = 255)
    (h0 : 0 < th) (h255 : th ≤ 255) :
    npWhereLt mask th = mask := by
  have hrow : ∀ row ∈ mask,
      row.map (fun x => if x < th then (0 : Int) else 255) = row := by
    intro row hr
    have hpt : ∀ x ∈ row, (if x < th then (0 : Int) else 255) = x := by
      intro x hx
      rcases hbin row hr x hx with rfl | rfl
      · rw [if_pos (by omega)]
      · rw [if_neg (by omega)]
    calc row.map (fun x => if x < th then (0 : Int) else 255)
        = row.map id := List.map_congr_left hpt
      _ = row := List.map_id row
  calc npWhereLt mask th
      = mask.map id := List.map_congr_left hrow
    _ = mask := List.map_id mask

/-- Witness for C7: the theorem applied to the binary mask `[[0, 255]]` with
threshold 10. -/
theorem npWhereLt_idempotent_witness : npWhereLt [[0, 255]] 10 = [[0, 255]] :=
  npWhereLt_idempotent [[0, 255]] 10 (by decide) (by decide) (by decide)

/-- Witness for C8 (amended): the theorem applied to the 2×0 image (two
empty rows) with threshold 10. -/
theorem no_shape_validation_witness :
    boundaryRectangle [[], []] 10 = .error .valueError ∧
    boundaryCircle [[], []] 10 = .error .valueError ∧
    (∀ img₂ th₂,
      boundaryRectangle img₂ th₂ ≠ .error .invalidShapeError ∧
      boundaryCircle img₂ th₂ ≠ .error .invalidShapeError) :=
  no_shape_validation [[], []] 10 (Or.inr (by decide))

/-- C9: the detectors never mutate the array of the caller: in the state-passing
embedding, the heap cell holding the input reads the same after either call,
and the value each call computes agrees with the purely functional
embedding — the binarized mask is a fresh allocation, not an in-place
update. -/
theorem detectors_do_not_mutate_input (h : Heap) (imgRef : ℕ) (th : Int)
    (hvalid : imgRef < h.arrs.length) :
    (boundaryRectangleH h imgRef th).1.read imgRef = h.read imgRef ∧
    (boundaryRectangleH h imgRef th).2 = boundaryRectangle (h.read imgRef) th ∧
    (boundaryCircleH h imgRef th).1.read imgRef = h.read imgRef ∧
    (boundaryCircleH h imgRef th).2 = boundaryCircle (h.read imgRef) th := by
  have hself : (npWhereLtH h imgRef th).1.read (npWhereLtH h imgRef th).2 =
      npWhereLt (h.read imgRef) th := Heap.read_alloc_self h _
  refine ⟨?_, ?_, ?_, ?_⟩
  · exact Heap.read_alloc_lt h _ imgRef hvalid
  · simp only [boundaryRectangleH, boundaryRectangle, hself]
  · exact Heap.read_alloc_lt h _ imgRef hvalid
  · simp only [boundaryCircleH, boundaryCircle, hself]

/-- Witness for C9: the theorem applied to a one-array heap holding
`[[0, 255]]`, reference 0, threshold 10. -/
theorem detectors_do_not_mutate_input_witness :
    (boundaryRectangleH ⟨[[[0, 255]]]⟩ 0 10).1.read 0 = Heap.read ⟨[[[0, 255]]]⟩ 0 ∧
    (boundaryRectangleH ⟨[[[0, 255]]]⟩ 0 10).2 =
      boundaryRectangle (Heap.read ⟨[[[0, 255]]]⟩ 0) 10 ∧
    (boundaryCircleH ⟨[[[0, 255]]]⟩ 0 10).1.read 0 = Heap.read ⟨[[[0, 255]]]⟩ 0 ∧
    (boundaryCircleH ⟨[[[0, 255]]]⟩ 0 10).2 =
      boundaryCircle (Heap.read ⟨[[[0, 255]]]⟩ 0) 10 :=
  detectors_do_not_mutate_input ⟨[[[0, 255]]]⟩ 0 10 (by decide)

/-- C10: the detectors depend on the input only through the set of
illuminated positions: two images of identical shape whose pixels sit at or
above `th` at exactly the same positions yield identical rectangle and
circle results, whatever the actual intensity values. -/
theorem detectors_depend_only_on_illumination (A B : Img) (th : Int)
    (hlen : A.length = B.length)
    (hrows : ∀ i, i < A.length → (A.getD i []).length = (B.getD i []).length)
    (hillum : ∀ i, i < A.length → ∀ j, j < (A.getD i []).length →
      (th ≤ px A i j ↔ th ≤ px B i j)) :
    boundaryRectangle A th = boundaryRectangle B th ∧
    boundaryCircle A th = boundaryCircle B th := by
  have hmask : npWhereLt A th = npWhereLt B th := by
    apply List.ext_getElem (by simp only [npWhereLt, List.length_map]; exact hlen)
    intro i h1 h2
    simp only [npWhereLt, List.length_map] at h1 h2
    simp only [npWhereLt, List.getElem_map]
    apply List.ext_getElem
    · have := hrows i h1
      rw [List.getD_eq_getElem _ _ h1, List.getD_eq_getElem _ _ h2] at this
      simp only [List.length_map]
      exact this
    · intro j hj1 hj2
      simp only [List.length_map] at hj1 hj2
      have hj1' : j < (A.getD i []).length := by
        rw [List.getD_eq_getElem _ _ h1]; exact hj1
      have hiff := hillum i h1 j hj1'
      rw [px, px, List.getD_eq_getElem _ _ h1, List.getD_eq_getElem _ _ h2,
        List.getD_eq_getElem _ _ hj1, List.getD_eq_getElem _ _ hj2] at hiff
      simp only [List.getElem_map]
      by_cases hc : A[i][j] < th
      · rw [if_pos hc, if_pos (by omega)]
      · rw [if_neg hc, if_neg (by omega)]
  constructor
  · simp only [boundaryRectangle, hmask]
  · simp only [boundaryCircle, hmask]

/-- Witness for C10: the theorem applied to `[[0, 255]]` and `[[9, 30]]`
with threshold 10 — the intensities differ everywhere, the illumination
pattern is the same. -/
theorem detectors_depend_only_on_illumination_witness :
    boundaryRectangle [[0, 255]] 10 = boundaryRectangle [[9, 30]] 10 ∧
    boundaryCircle [[0, 255]] 10 = boundaryCircle [[9, 30]] 10 :=
  detectors_depend_only_on_illumination [[0, 255]] [[9, 30]] 10 (by decide)
    (by decide) (by decide)

end Endoscopy
